import Mathlib

/-!
Verification of the QQWry database converter (`scripts/generate_all.py`).

The program is embedded shallowly:

* the raw database file is a `Bytes` value (a list of byte values);
* Python `struct.unpack` / slicing / `bytes.find` are embedded with their
  exact semantics, including the fact that a short slice makes
  `struct.unpack` raise (embedded as `Except.error ()`);
* text is represented by the byte sequence it decodes from; the GBK
  decode with `errors='replace'` is total, so at the level of the claims
  (which strings are selected, how they are joined) the byte sequences
  are the faithful representation; the space in the f-string
  `"{country} {area}"` is byte 32;
* the recursive resolvers `_get_addr` / `_get_area_addr` carry an explicit
  `fuel` parameter embedding CPython's recursion limit; exhausting the
  fuel raises (like `RecursionError`), and the bare `except:` in
  `_get_addr` catches it, returning the empty string;
* `list.sort` (stable, in place) is embedded by `List.mergeSort`, and the
  mutation is made explicit: `mergeState` returns both the caller-visible
  post-state of the input list and the returned merged list.

`ipaddress.summarize_address_range` is Python standard-library code that
is not part of this repository; it is modelled from the specification
(§4.5) as `summarize` below.
-/

namespace QQWry

abbrev Bytes := List Nat

/-- Little-endian value of a byte sequence. -/
def leVal : Bytes → Nat
  | [] => 0
  | b :: t => b + 256 * leVal t

/-- Python `self.data[offset]`: raises `IndexError` when out of bounds. -/
def byteAt (data : Bytes) (offset : Nat) : Except Unit Nat :=
  if h : offset < data.length then .ok (data.get ⟨offset, h⟩) else .error ()

/-- The 4-byte little-endian value at an in-bounds offset. -/
def u32At (data : Bytes) (offset : Nat) : Nat :=
  leVal ((data.drop offset).take 4)

/-- The 3-byte little-endian value at an in-bounds offset (the fourth
byte appended by `_get_long3` is zero, so it contributes nothing). -/
def u24At (data : Bytes) (offset : Nat) : Nat :=
  leVal ((data.drop offset).take 3)

/-- Python `struct.unpack('<I', data[offset:offset+4])[0]`:
`struct.error` unless the slice has exactly 4 bytes. -/
def unpackU32 (data : Bytes) (offset : Nat) : Except Unit Nat :=
  if offset + 4 ≤ data.length then .ok (u32At data offset)
  else .error ()

/-- `_get_long3`: `struct.unpack('<I', data[offset:offset+3] + b'\x00')[0]`;
`struct.error` unless the 3-byte slice is complete. -/
def getLong3 (data : Bytes) (offset : Nat) : Except Unit Nat :=
  if offset + 3 ≤ data.length then .ok (u24At data offset)
  else .error ()

/-- Python `data.find(b'\x00', offset)`: index of the first zero byte at or
after `offset`, `none` for Python's `-1`. -/
def findZero (data : Bytes) (offset : Nat) : Option Nat :=
  match (data.drop offset).findIdx? (· = 0) with
  | some i => some (offset + i)
  | none => none

/-- `_get_string`: slice up to the first zero byte; when there is none,
Python's `find` returns `-1` and `data[offset:-1]` keeps everything up to
but excluding the final byte of the buffer.  Decoding with
`errors='replace'` is total, so no error case arises. -/
def getString (data : Bytes) (offset : Nat) : Bytes :=
  match findZero data offset with
  | some e => (data.drop offset).take (e - offset)
  | none => (data.drop offset).take (data.length - 1 - offset)

/-- `_get_area_addr`: recursive area resolution; no `try` of its own, so
out-of-bounds reads and fuel exhaustion (`RecursionError`) propagate to
the caller. -/
def getAreaAddr (data : Bytes) : Nat → Nat → Except Unit Bytes
  | 0, _ => .error ()
  | fuel + 1, offset => do
    let mode ← byteAt data offset
    if mode = 1 ∨ mode = 2 then
      let nextOffset ← getLong3 data (offset + 1)
      if nextOffset = 0 then .ok []
      else getAreaAddr data fuel nextOffset
    else
      .ok (getString data offset)

/-- Body of `_get_addr` before its `try`/`except`. -/
def getAddrBody (data : Bytes) (recCall : Nat → Bytes) (fuel offset : Nat) :
    Except Unit Bytes := do
  let mode ← byteAt data offset
  if mode = 1 then
    let seekOffset ← getLong3 data (offset + 1)
    .ok (recCall seekOffset)
  else if mode = 2 then
    let seekOffset ← getLong3 data (offset + 1)
    let country := getString data seekOffset
    let area ← getAreaAddr data fuel (offset + 4)
    .ok (country ++ [32] ++ area)
  else
    let country := getString data offset
    let area ← getAreaAddr data fuel (offset + country.length + 1)
    .ok (country ++ [32] ++ area)

/-- `_get_addr`: the bare `except:` turns every failure of the body —
including fuel exhaustion, i.e. `RecursionError` — into the empty
string, so the function is total. -/
def getAddr (data : Bytes) : Nat → Nat → Bytes
  | 0, _ => []
  | fuel + 1, offset =>
    match getAddrBody data (getAddr data fuel) fuel (offset) with
    | .ok s => s
    | .error _ => []

/-- Header parsing in `__init__`: the two `u32` header reads and the
derived signed count `(last - first) // 7 + 1` (Python floor division). -/
def parseHeader (data : Bytes) : Except Unit (Nat × Nat × Int) := do
  let firstIndex ← unpackU32 data 0
  let lastIndex ← unpackU32 data 4
  .ok (firstIndex, lastIndex,
    Int.fdiv ((lastIndex : Int) - (firstIndex : Int)) 7 + 1)

/-- One iteration of the scan loop in `run`: the index-entry reads and the
end-address read are outside any `try`, so their failures propagate;
`_get_addr` is total. -/
def scanEntry (data : Bytes) (fuel firstIndex i : Nat) :
    Except Unit (Nat × Nat × Bytes) := do
  let idxOffset := firstIndex + i * 7
  let startIp ← unpackU32 data idxOffset
  let recordOffset ← getLong3 data (idxOffset + 4)
  let endIp ← unpackU32 data recordOffset
  .ok (startIp, endIp, getAddr data fuel (recordOffset + 4))

/-- The scan loop of `run`, entries `i, i+1, ...` for `n` iterations. -/
def scanLoop (data : Bytes) (fuel firstIndex : Nat) :
    Nat → Nat → Except Unit (List (Nat × Nat × Bytes))
  | _, 0 => .ok []
  | i, n + 1 => do
    let e ← scanEntry data fuel firstIndex i
    let rest ← scanLoop data fuel firstIndex (i + 1) n
    .ok (e :: rest)

/-- The whole load: header parse then the full index scan
(`for i in range(self.count)`, where `range` of a non-positive count is
empty — `Int.toNat` of a non-positive integer is `0`). -/
def scanAll (data : Bytes) (fuel : Nat) :
    Except Unit (List (Nat × Nat × Bytes)) := do
  let h ← parseHeader data
  scanLoop data fuel h.1 0 h.2.2.toNat

/-- `raw_ranges.sort(key=lambda x: x[0])`: Python's stable sort by range
start; any stable sort produces the same list, so `List.mergeSort` with
the by-start comparison is the exact result. -/
def pysort (l : List (Nat × Nat)) : List (Nat × Nat) :=
  l.mergeSort (fun a b => decide (a.1 ≤ b.1))

/-- The fold of `_merge_ranges` over the sorted tail. -/
def mergeFold : Nat × Nat → List (Nat × Nat) → List (Nat × Nat)
  | curr, [] => [curr]
  | (currS, currE), (nextS, nextE) :: t =>
    if nextS ≤ currE + 1 then mergeFold (currS, max currE nextE) t
    else (currS, currE) :: mergeFold (nextS, nextE) t

/-- `_merge_ranges`, with the in-place mutation made explicit: the first
component is the caller-visible state of the input list after the call
(sorted in place), the second is the returned merged list.  The empty
input returns early, before the sort. -/
def mergeState (l : List (Nat × Nat)) : List (Nat × Nat) × List (Nat × Nat) :=
  match pysort l with
  | [] => (l, [])
  | x :: t => (pysort l, mergeFold x t)

/-- The merged list returned by `_merge_ranges`. -/
def mergeRanges (l : List (Nat × Nat)) : List (Nat × Nat) :=
  (mergeState l).2

/-- The caller-visible state of the input list after `_merge_ranges`. -/
def mergePost (l : List (Nat × Nat)) : List (Nat × Nat) :=
  (mergeState l).1

/-- Modelled from the spec: the repository calls the Python standard
library `ipaddress.summarize_address_range`, whose code is not part of
this repository; §4.5 specifies it.  `tzsize s` is the largest
power-of-two block size whose alignment `s` satisfies: `2^k` for `k` the
number of trailing zero bits of `s`, or `2^32` when `s = 0`. -/
def tzsize (s : Nat) : Nat :=
  if s = 0 then 2 ^ 32
  else if s % 2 = 1 then 1
  else 2 * tzsize (s / 2)
decreasing_by exact Nat.div_lt_self (Nat.pos_of_ne_zero (by assumption)) one_lt_two

/-- Modelled from the spec: the largest power of two that is `≤ n`
(meaningful for `n ≥ 1`). -/
def pw2 (n : Nat) : Nat := 2 ^ Nat.log 2 n

/-- Modelled from the spec: the block size chosen at each step —
`min(max_size_by_start, max_size_by_remaining)`. -/
def chooseSize (s e : Nat) : Nat := min (tzsize s) (pw2 (e + 1 - s))

theorem tzsize_pos (s : Nat) : 0 < tzsize s := by
  induction s using Nat.strong_induction_on with
  | _ s ih =>
    rw [tzsize]
    split
    · positivity
    · split
      · exact Nat.one_pos
      · have hs : s ≠ 0 := by assumption
        have := ih (s / 2) (Nat.div_lt_self (Nat.pos_of_ne_zero hs) one_lt_two)
        omega

theorem pw2_pos (n : Nat) : 0 < pw2 n := Nat.pos_pow_of_pos _ (by norm_num)

theorem chooseSize_pos (s e : Nat) : 0 < chooseSize s e :=
  lt_min (tzsize_pos s) (pw2_pos _)

/-- Modelled from the spec: the greedy range-to-CIDR decomposition of
§4.5, emitting `(base, size)` blocks. -/
def summarize (s e : Nat) : List (Nat × Nat) :=
  if _h : s ≤ e then (s, chooseSize s e) :: summarize (s + chooseSize s e) e
  else []
termination_by e + 1 - s
decreasing_by have := chooseSize_pos s e; omega

/-- A `(base, size)` block rendered as a `(base, prefix length)` CIDR
block: the prefix length is `32 - log2 size`. -/
def toCidr (b : Nat × Nat) : Nat × Nat := (b.1, 32 - Nat.log 2 b.2)

/-- The CIDR blocks emitted for a merged range. -/
def summarizeCidr (s e : Nat) : List (Nat × Nat) :=
  (summarize s e).map toCidr

end QQWry

namespace QQWry

/-- `n` is one of the addresses covered by the range list `l`. -/
def covers (l : List (Nat × Nat)) (n : Nat) : Prop :=
  ∃ p ∈ l, p.1 ≤ n ∧ n ≤ p.2

/-- The canonical shape of a merged list: every interval well-formed,
and each interval separated from the next by a gap of at least one
address (so intervals neither overlap nor touch). -/
def goodChain : List (Nat × Nat) → Prop
  | [] => True
  | [a] => a.1 ≤ a.2
  | a :: b :: t => a.1 ≤ a.2 ∧ a.2 + 1 < b.1 ∧ goodChain (b :: t)

/-- The block list `L` covers every address of `[s, e]`. -/
def coversRange (L : List (Nat × Nat)) (s e : Nat) : Prop :=
  ∀ n, s ≤ n → n ≤ e → ∃ b ∈ L, b.1 ≤ n ∧ n < b.1 + b.2

/-- Every block of `L` is an aligned power-of-two block lying inside
`[s, e]`. -/
def alignedIn (L : List (Nat × Nat)) (s e : Nat) : Prop :=
  ∀ b ∈ L, (∃ k, b.2 = 2 ^ k) ∧ b.2 ∣ b.1 ∧ s ≤ b.1 ∧ b.1 + b.2 ≤ e + 1

/-- `L` tiles `[s, e+1)` exactly: consecutive blocks, first starting at
`s`, each adjacent to the next, last ending at `e + 1`. -/
def tiles : Nat → Nat → List (Nat × Nat) → Prop
  | s, e, [] => s = e + 1
  | s, e, b :: t => b.1 = s ∧ 0 < b.2 ∧ s + b.2 ≤ e + 1 ∧ tiles (s + b.2) e t

theorem tzsize_zero : tzsize 0 = 2 ^ 32 := by
  rw [tzsize]
  simp

theorem tzsize_spec (s : Nat) (hs : s ≠ 0) :
    ∃ k, tzsize s = 2 ^ k ∧ 2 ^ k ∣ s ∧ ¬ 2 ^ (k + 1) ∣ s := by
  induction s using Nat.strong_induction_on with
  | _ s ih =>
    rw [tzsize]
    rw [if_neg hs]
    by_cases hodd : s % 2 = 1
    · refine ⟨0, by simp [hodd], Nat.one_dvd s, ?_⟩
      intro hdvd
      rw [pow_one] at hdvd
      omega
    · rw [if_neg hodd]
      have heven : s % 2 = 0 := by omega
      have hhalf : s / 2 ≠ 0 := by omega
      obtain ⟨k, hk, hdvd, hnot⟩ :=
        ih (s / 2) (Nat.div_lt_self (Nat.pos_of_ne_zero hs) one_lt_two) hhalf
      refine ⟨k + 1, by rw [hk]; ring, ?_, ?_⟩
      · obtain ⟨c, hc⟩ := hdvd
        refine ⟨c, ?_⟩
        have h2 : 2 ^ (k + 1) * c = 2 * (2 ^ k * c) := by ring
        omega
      · intro hdvd2
        apply hnot
        obtain ⟨c, hc⟩ := hdvd2
        refine ⟨c, ?_⟩
        have h2 : s = 2 * (2 ^ (k + 1) * c) := by rw [hc]; ring
        omega

theorem tzsize_isPow (s : Nat) : ∃ k, tzsize s = 2 ^ k := by
  by_cases hs : s = 0
  · exact ⟨32, hs ▸ tzsize_zero⟩
  · obtain ⟨k, hk, _, _⟩ := tzsize_spec s hs
    exact ⟨k, hk⟩

theorem tzsize_dvd (s : Nat) (hs : s ≠ 0) : tzsize s ∣ s := by
  obtain ⟨k, hk, hdvd, _⟩ := tzsize_spec s hs
  rw [hk]
  exact hdvd

theorem pow_le_tzsize {k s : Nat} (hdvd : 2 ^ k ∣ s) (hs : s ≠ 0) :
    2 ^ k ≤ tzsize s := by
  obtain ⟨j, hj, _, hnot⟩ := tzsize_spec s hs
  rw [hj]
  rcases Nat.le_total k j with h | h
  · exact Nat.pow_le_pow_right (by norm_num) h
  · rcases Nat.eq_or_lt_of_le h with rfl | hlt
    · exact le_refl _
    · exact absurd (dvd_trans (pow_dvd_pow 2 hlt) hdvd) hnot

theorem tzsize_unique {k x : Nat} (hdvd : 2 ^ k ∣ x) (hnot : ¬ 2 ^ (k + 1) ∣ x) :
    tzsize x = 2 ^ k := by
  have hx : x ≠ 0 := by rintro rfl; exact hnot (dvd_zero _)
  obtain ⟨j, hj, hdvdj, hnotj⟩ := tzsize_spec x hx
  rw [hj]
  congr 1
  rcases Nat.lt_trichotomy j k with h | h | h
  · exact absurd (dvd_trans (pow_dvd_pow 2 h) hdvd) hnotj
  · exact h
  · exact absurd (dvd_trans (pow_dvd_pow 2 h) hdvdj) hnot

theorem pw2_isPow (n : Nat) : ∃ k, pw2 n = 2 ^ k := ⟨_, rfl⟩

theorem pw2_le {n : Nat} (h : 1 ≤ n) : pw2 n ≤ n :=
  Nat.pow_log_le_self 2 (by omega)

theorem le_pw2 {k n : Nat} (h : 2 ^ k ≤ n) : 2 ^ k ≤ pw2 n := by
  have hn : n ≠ 0 := by
    have h1 : (1:Nat) ≤ 2 ^ k := Nat.one_le_two_pow
    omega
  exact Nat.pow_le_pow_right (by norm_num)
    ((Nat.pow_le_iff_le_log (by norm_num) hn).mp h)

theorem pw2_pow (k : Nat) : pw2 (2 ^ k) = 2 ^ k := by
  rw [pw2, Nat.log_pow (by norm_num)]

theorem chooseSize_isPow (s e : Nat) : ∃ k, chooseSize s e = 2 ^ k := by
  unfold chooseSize
  rcases Nat.le_total (tzsize s) (pw2 (e + 1 - s)) with h | h
  · rw [min_eq_left h]; exact tzsize_isPow s
  · rw [min_eq_right h]; exact pw2_isPow _

theorem pow_dvd_of_le {i j : Nat} (h : 2 ^ i ≤ 2 ^ j) : 2 ^ i ∣ 2 ^ j :=
  pow_dvd_pow 2 ((Nat.pow_le_pow_iff_right (by norm_num)).mp h)

theorem chooseSize_dvd (s e : Nat) : chooseSize s e ∣ s := by
  by_cases hs : s = 0
  · simp [hs]
  · have h1 : chooseSize s e ≤ tzsize s := min_le_left _ _
    obtain ⟨i, hi⟩ := chooseSize_isPow s e
    obtain ⟨j, hj⟩ := tzsize_isPow s
    refine dvd_trans ?_ (tzsize_dvd s hs)
    rw [hi, hj]
    exact pow_dvd_of_le (by rw [← hi, ← hj]; exact h1)

theorem chooseSize_le_len {s e : Nat} (h : s ≤ e) :
    chooseSize s e ≤ e + 1 - s :=
  le_trans (min_le_right _ _) (pw2_le (by omega))

theorem le_chooseSize {k s e : Nat} (hdvd : 2 ^ k ∣ s)
    (hlen : s + 2 ^ k ≤ e + 1) (he : e < 2 ^ 32) :
    2 ^ k ≤ chooseSize s e := by
  refine le_min ?_ (le_pw2 (by omega))
  by_cases hs : s = 0
  · rw [hs, tzsize_zero]
    omega
  · exact pow_le_tzsize hdvd hs

theorem summarize_cons {s e : Nat} (h : s ≤ e) :
    summarize s e = (s, chooseSize s e) :: summarize (s + chooseSize s e) e := by
  rw [summarize, dif_pos h]

theorem summarize_empty {s e : Nat} (h : e < s) : summarize s e = [] := by
  rw [summarize, dif_neg (by omega)]

theorem summarize_tiles (s e : Nat) (h : s ≤ e) :
    tiles s e (summarize s e) := by
  rw [summarize_cons h]
  have hpos := chooseSize_pos s e
  have hlen := chooseSize_le_len h
  refine ⟨rfl, hpos, by omega, ?_⟩
  by_cases h2 : s + chooseSize s e ≤ e
  · exact summarize_tiles (s + chooseSize s e) e h2
  · have heq : s + chooseSize s e = e + 1 := by omega
    rw [heq, summarize_empty (by omega)]
    simp [tiles, heq]
termination_by e + 1 - s
decreasing_by have := chooseSize_pos s e; omega

theorem tiles_within {L : List (Nat × Nat)} :
    ∀ {s e : Nat}, tiles s e L → ∀ b ∈ L, s ≤ b.1 ∧ 0 < b.2 ∧ b.1 + b.2 ≤ e + 1 := by
  induction L with
  | nil => intro s e _ b hb; cases hb
  | cons a t ih =>
    intro s e ht b hb
    obtain ⟨ha1, ha2, ha3, ht'⟩ := ht
    rcases List.mem_cons.mp hb with rfl | hb'
    · exact ⟨by omega, ha2, by omega⟩
    · have := ih ht' b hb'
      omega

theorem tiles_covers {L : List (Nat × Nat)} :
    ∀ {s e : Nat}, tiles s e L → ∀ n, s ≤ n → n ≤ e →
      ∃ b ∈ L, b.1 ≤ n ∧ n < b.1 + b.2 := by
  induction L with
  | nil =>
    intro s e ht n h1 h2
    exact absurd ht (by simp [tiles]; omega)
  | cons a t ih =>
    intro s e ht n h1 h2
    obtain ⟨ha1, ha2, ha3, ht'⟩ := ht
    by_cases hn : n < s + a.2
    · exact ⟨a, List.mem_cons_self _ _, by omega, by omega⟩
    · obtain ⟨b, hb, hb1, hb2⟩ := ih ht' n (by omega) h2
      exact ⟨b, List.mem_cons_of_mem _ hb, hb1, hb2⟩

theorem tiles_disjoint {L : List (Nat × Nat)} :
    ∀ {s e : Nat}, tiles s e L →
      List.Pairwise (fun a b => a.1 + a.2 ≤ b.1) L := by
  induction L with
  | nil => intro s e _; exact List.Pairwise.nil
  | cons a t ih =>
    intro s e ht
    obtain ⟨ha1, ha2, ha3, ht'⟩ := ht
    refine List.Pairwise.cons ?_ (ih ht')
    intro b hb
    have := (tiles_within ht' b hb).1
    omega

theorem tiles_sorted {L : List (Nat × Nat)} {s e : Nat} (ht : tiles s e L) :
    List.Pairwise (fun a b => a.1 < b.1) L := by
  refine (tiles_disjoint ht).imp_of_mem ?_
  intro a b ha _ h
  have := (tiles_within ht a ha).2.1
  omega

theorem tiles_exact {L : List (Nat × Nat)} {s e : Nat}
    (ht : tiles s e L) :
    ∀ n, (∃ b ∈ L, b.1 ≤ n ∧ n < b.1 + b.2) ↔ s ≤ n ∧ n ≤ e := by
  intro n
  constructor
  · rintro ⟨b, hb, h1, h2⟩
    have := tiles_within ht b hb
    omega
  · rintro ⟨h1, h2⟩
    exact tiles_covers ht n h1 h2

theorem summarize_aligned (s e : Nat) :
    ∀ b ∈ summarize s e, b.2 ∣ b.1 ∧ ∃ k, b.2 = 2 ^ k := by
  intro b hb
  by_cases h : s ≤ e
  · rw [summarize_cons h] at hb
    rcases List.mem_cons.mp hb with rfl | hb'
    · exact ⟨chooseSize_dvd s e, chooseSize_isPow s e⟩
    · have := chooseSize_pos s e
      exact summarize_aligned (s + chooseSize s e) e b hb'
  · rw [summarize_empty (by omega)] at hb
    cases hb
termination_by e + 1 - s
decreasing_by have := chooseSize_pos s e; omega

/-- Taking a smaller aligned first step than the greedy step costs at
most one extra block. -/
theorem greedy_le (s e k : Nat) (hdvd : 2 ^ k ∣ s)
    (hle : 2 ^ k ≤ chooseSize s e) (hse : s + 2 ^ k ≤ e + 1) :
    (summarize s e).length ≤ 1 + (summarize (s + 2 ^ k) e).length := by
  have hkpos : 0 < 2 ^ k := Nat.pos_pow_of_pos _ (by norm_num)
  have hse' : s ≤ e := by omega
  rcases Nat.eq_or_lt_of_le hle with heq | hlt
  · rw [summarize_cons hse', ← heq]
    simp only [List.length_cons]
    omega
  · -- the greedy step is strictly larger: 2^(k+1) still divides s and fits
    obtain ⟨c, hc⟩ := chooseSize_isPow s e
    have hkc : k < c := by
      rw [hc] at hlt
      exact (Nat.pow_lt_pow_iff_right (by norm_num)).mp hlt
    have hk1le : 2 ^ (k + 1) ≤ chooseSize s e := by
      rw [hc]
      exact Nat.pow_le_pow_right (by norm_num) hkc
    have hdvd1 : 2 ^ (k + 1) ∣ s := by
      by_cases hs : s = 0
      · simp [hs]
      · have h1 : chooseSize s e ≤ tzsize s := min_le_left _ _
        obtain ⟨j, hj, hjdvd, hjnot⟩ := tzsize_spec s hs
        have hcj : 2 ^ (k + 1) ≤ 2 ^ j := by rw [← hj]; omega
        exact dvd_trans (pow_dvd_of_le hcj) hjdvd
    have hlen : 2 ^ (k + 1) ≤ e + 1 - s :=
      le_trans hk1le (chooseSize_le_len hse')
    have hpow : (2:Nat) ^ (k + 1) = 2 ^ k + 2 ^ k := by ring
    -- the greedy step at s + 2^k is exactly 2^k
    have htz : tzsize (s + 2 ^ k) = 2 ^ k := by
      apply tzsize_unique
      · exact Nat.dvd_add (dvd_trans (pow_dvd_pow 2 (by omega)) hdvd1) dvd_rfl
      · intro hd
        have h2 : 2 ^ (k + 1) ∣ 2 ^ k := (Nat.dvd_add_right hdvd1).mp hd
        have := Nat.le_of_dvd hkpos h2
        omega
    have hcs2 : chooseSize (s + 2 ^ k) e = 2 ^ k := by
      rw [chooseSize, htz]
      exact min_eq_left (le_pw2 (by omega))
    have hadd : s + 2 ^ k + 2 ^ k = s + 2 ^ (k + 1) := by omega
    have hrec : summarize (s + 2 ^ k) e =
        (s + 2 ^ k, 2 ^ k) :: summarize (s + 2 ^ (k + 1)) e := by
      rw [summarize_cons (by omega), hcs2, hadd]
    have hih := greedy_le s e (k + 1) hdvd1 hk1le (by omega)
    rw [hrec]
    simp only [List.length_cons]
    omega
termination_by chooseSize s e - 2 ^ k
decreasing_by
  have _h1 : 2 ^ k < 2 ^ (k + 1) := Nat.pow_lt_pow_right (by norm_num) (by omega)
  omega

/-- Among the blocks of `L` containing the address `s` there is one of
maximal size. -/
theorem exists_largest_containing (L : List (Nat × Nat)) (s : Nat)
    (h : ∃ b ∈ L, b.1 ≤ s ∧ s < b.1 + b.2) :
    ∃ b ∈ L, (b.1 ≤ s ∧ s < b.1 + b.2) ∧
      ∀ x ∈ L, x.1 ≤ s → s < x.1 + x.2 → x.2 ≤ b.2 := by
  induction L with
  | nil => obtain ⟨b, hb, _⟩ := h; cases hb
  | cons a t ih =>
    by_cases hta : ∃ b ∈ t, b.1 ≤ s ∧ s < b.1 + b.2
    · obtain ⟨c, hc, hcc, hcmax⟩ := ih hta
      by_cases haa : a.1 ≤ s ∧ s < a.1 + a.2
      · rcases Nat.le_total a.2 c.2 with hle | hle
        · refine ⟨c, List.mem_cons_of_mem _ hc, hcc, ?_⟩
          intro x hx hx1 hx2
          rcases List.mem_cons.mp hx with rfl | hx'
          · exact hle
          · exact hcmax x hx' hx1 hx2
        · refine ⟨a, List.mem_cons_self _ _, haa, ?_⟩
          intro x hx hx1 hx2
          rcases List.mem_cons.mp hx with rfl | hx'
          · exact le_refl _
          · exact le_trans (hcmax x hx' hx1 hx2) hle
      · refine ⟨c, List.mem_cons_of_mem _ hc, hcc, ?_⟩
        intro x hx hx1 hx2
        rcases List.mem_cons.mp hx with rfl | hx'
        · exact absurd ⟨hx1, hx2⟩ haa
        · exact hcmax x hx' hx1 hx2
    · obtain ⟨b, hb, hbb⟩ := h
      rcases List.mem_cons.mp hb with rfl | hb'
      · refine ⟨b, List.mem_cons_self _ _, hbb, ?_⟩
        intro x hx hx1 hx2
        rcases List.mem_cons.mp hx with rfl | hx'
        · exact le_refl _
        · exact absurd ⟨x, hx', hx1, hx2⟩ hta
      · exact absurd ⟨b, hb', hbb⟩ hta

theorem length_filter_lt {α : Type} (p : α → Bool) (L : List α) (a : α)
    (ha : a ∈ L) (hpa : p a = false) :
    (L.filter p).length < L.length := by
  induction L with
  | nil => cases ha
  | cons x t ih =>
    rcases List.mem_cons.mp ha with rfl | ha'
    · have := List.length_filter_le p t
      simp only [List.filter_cons, hpa, Bool.false_eq_true, if_false,
        List.length_cons]
      omega
    · have := ih ha'
      cases hpx : p x
      · simp only [List.filter_cons, hpx, Bool.false_eq_true, if_false,
          List.length_cons]
        omega
      · simp only [List.filter_cons, hpx, if_true, List.length_cons]
        omega

/-- The greedy decomposition is minimal: any list of aligned power-of-two
blocks inside `[s, e]` that covers `[s, e]` has at least as many blocks
as `summarize`. -/
theorem summarize_minimal (s e : Nat) (hse : s ≤ e) (he : e < 2 ^ 32)
    (L : List (Nat × Nat)) (halign : alignedIn L s e)
    (hcov : coversRange L s e) :
    (summarize s e).length ≤ L.length := by
  obtain ⟨B, hBmem, ⟨hB1, hB2⟩, hBmax⟩ :=
    exists_largest_containing L s (hcov s (le_refl s) hse)
  obtain ⟨⟨m, hm⟩, hBdvd, hBlo, hBhi⟩ := halign B hBmem
  have hB1' : B.1 = s := le_antisymm hB1 hBlo
  have hmpos : 0 < 2 ^ m := Nat.pos_pow_of_pos _ (by norm_num)
  have hdvds : 2 ^ m ∣ s := by rw [← hB1', ← hm]; exact hBdvd
  have hfit : s + 2 ^ m ≤ e + 1 := by
    rw [← hB1', ← hm]
    exact hBhi
  have hle : 2 ^ m ≤ chooseSize s e := le_chooseSize hdvds hfit he
  by_cases hlast : s + 2 ^ m = e + 1
  · -- the maximal block covers the whole remaining range: one greedy block
    have hcs : chooseSize s e = 2 ^ m :=
      le_antisymm (by have := chooseSize_le_len hse; omega) hle
    have : summarize s e = [(s, chooseSize s e)] := by
      rw [summarize_cons hse, hcs, summarize_empty (by omega)]
    rw [this]
    have : L ≠ [] := by rintro rfl; cases hBmem
    have := List.length_pos.mpr this
    simp only [List.length_singleton]
    omega
  · -- blocks that start before the boundary b end at or before it
    have hbound : ∀ x ∈ L, x.1 < s + 2 ^ m → x.1 + x.2 ≤ s + 2 ^ m := by
      intro x hx hxlt
      obtain ⟨⟨j, hj⟩, hxdvd, hxlo, hxhi⟩ := halign x hx
      by_contra hgt
      push_neg at hgt
      rcases Nat.le_total j m with hjm | hjm
      · -- small blocks cannot cross the 2^m-aligned boundary
        have hdvdx : 2 ^ j ∣ x.1 := by rw [← hj]; exact hxdvd
        have hdvdb : 2 ^ j ∣ s + 2 ^ m :=
          Nat.dvd_add (dvd_trans (pow_dvd_pow 2 hjm) hdvds)
            (pow_dvd_pow 2 hjm)
        have hsub : 2 ^ j ∣ (s + 2 ^ m) - x.1 := Nat.dvd_sub' hdvdb hdvdx
        have hpos : 0 < (s + 2 ^ m) - x.1 := by omega
        have := Nat.le_of_dvd hpos hsub
        rw [hj] at hgt
        omega
      · -- a larger block containing the boundary would contain s itself,
        -- contradicting the maximality of B
        have hdvdm : 2 ^ m ∣ x.1 :=
          dvd_trans (pow_dvd_pow 2 hjm) (by rw [← hj]; exact hxdvd)
        have hdx : 2 ^ m ∣ x.1 - s := Nat.dvd_sub' hdvdm hdvds
        have hxs : x.1 = s := by
          rcases Nat.eq_zero_or_pos (x.1 - s) with h0 | h0
          · omega
          · have := Nat.le_of_dvd h0 hdx
            omega
        have hcont : x.2 ≤ B.2 := by
          apply hBmax x hx (by omega)
          rw [hxs, hj]
          omega
        rw [hj, hm] at hcont
        rw [hj, hxs] at hgt
        omega
    -- restrict the cover to the blocks at or after the boundary
    set b := s + 2 ^ m with hb
    set L' := L.filter (fun x => decide (b ≤ x.1)) with hL'
    have hbe : b ≤ e := by omega
    have halign' : alignedIn L' b e := by
      intro x hx
      have hx' := List.mem_filter.mp hx
      obtain ⟨hxp, hxdvd, hxlo, hxhi⟩ := halign x hx'.1
      exact ⟨hxp, hxdvd, by simpa using hx'.2, hxhi⟩
    have hcov' : coversRange L' b e := by
      intro n hn1 hn2
      obtain ⟨x, hx, hx1, hx2⟩ := hcov n (by omega) hn2
      have hxb : b ≤ x.1 := by
        by_contra hltc
        push_neg at hltc
        have := hbound x hx hltc
        omega
      exact ⟨x, List.mem_filter.mpr ⟨hx, by simpa using hxb⟩, hx1, hx2⟩
    have hBout : (fun x : Nat × Nat => decide (b ≤ x.1)) B = false := by
      simp only [decide_eq_false_iff_not, not_le]
      omega
    have hlt := length_filter_lt (fun x : Nat × Nat => decide (b ≤ x.1))
      L B hBmem hBout
    have hgr := greedy_le s e m hdvds hle (by omega)
    have hih := summarize_minimal b e hbe he L' halign' hcov'
    rw [← hL'] at hlt
    rw [← hb] at hgr
    omega
termination_by e + 1 - s
decreasing_by omega

theorem toCidr_mk (a b : Nat) : toCidr (a, b) = (a, 32 - Nat.log 2 b) := rfl

theorem summarize_single (s : Nat) : summarize s s = [(s, 1)] := by
  have hcs : chooseSize s s = 1 := by
    rw [chooseSize]
    have h1 : s + 1 - s = 1 := by omega
    rw [h1, pw2, Nat.log_one_right, pow_zero]
    exact min_eq_right (tzsize_pos s)
  rw [summarize_cons (le_refl s), hcs, summarize_empty (by omega)]

theorem summarize_full : summarize 0 (2 ^ 32 - 1) = [(0, 2 ^ 32)] := by
  have hpos : (0:Nat) < 2 ^ 32 := by norm_num
  have hcs : chooseSize 0 (2 ^ 32 - 1) = 2 ^ 32 := by
    rw [chooseSize, tzsize_zero]
    have h1 : 2 ^ 32 - 1 + 1 - 0 = 2 ^ 32 := by omega
    rw [h1, pw2_pow]
    exact min_self _
  rw [summarize_cons (by omega), hcs, summarize_empty (by omega)]

/-- C3: for every `start ≤ end` in the 32-bit address space, the
range-to-CIDR decomposition produces blocks in strictly ascending address
order, pairwise disjoint, each a power-of-two block whose base is
divisible by its size, lying inside `[start, end]` and together covering
exactly `[start, end]`; its block count is minimal among all such aligned
coverings; a single address yields exactly one `/32` block and the full
address space yields exactly one `/0` block. -/
theorem c3_summarize_correct (s e : Nat) (hse : s ≤ e) (he : e < 2 ^ 32) :
    List.Pairwise (fun a b => a.1 < b.1) (summarize s e) ∧
    List.Pairwise (fun a b => a.1 + a.2 ≤ b.1) (summarize s e) ∧
    (∀ b ∈ summarize s e, b.2 ∣ b.1 ∧ ∃ k, b.2 = 2 ^ k) ∧
    (∀ n, (∃ b ∈ summarize s e, b.1 ≤ n ∧ n < b.1 + b.2) ↔ s ≤ n ∧ n ≤ e) ∧
    alignedIn (summarize s e) s e ∧
    coversRange (summarize s e) s e ∧
    (∀ L, alignedIn L s e → coversRange L s e →
      (summarize s e).length ≤ L.length) ∧
    (s = e → summarizeCidr s e = [(s, 32)]) ∧
    (s = 0 → e = 2 ^ 32 - 1 → summarizeCidr s e = [(0, 0)]) := by
  have ht := summarize_tiles s e hse
  refine ⟨tiles_sorted ht, tiles_disjoint ht, summarize_aligned s e,
    tiles_exact ht, ?_, ?_, summarize_minimal s e hse he, ?_, ?_⟩
  · intro b hb
    have h1 := summarize_aligned s e b hb
    have h2 := tiles_within ht b hb
    exact ⟨h1.2, h1.1, h2.1, h2.2.2⟩
  · exact fun n h1 h2 => tiles_covers ht n h1 h2
  · intro h
    subst h
    rw [summarizeCidr, summarize_single, List.map_cons, List.map_nil,
      toCidr_mk, Nat.log_one_right]
  · intro h0 h1
    subst h0
    subst h1
    have hlog : Nat.log 2 (2 ^ 32) = 32 := Nat.log_pow (by norm_num) 32
    rw [summarizeCidr, summarize_full, List.map_cons, List.map_nil,
      toCidr_mk, hlog]

theorem c3_summarize_correct_witness : summarizeCidr 7 7 = [(7, 32)] :=
  (c3_summarize_correct 7 7 (le_refl 7)
    (by norm_num)).2.2.2.2.2.2.2.1 rfl

/-- A sanity example kept as a lemma-free smoke test of the embedding:
a minimal database with one literal record. -/
example : getString [65, 66, 0, 67] 0 = [65, 66] := by decide

/-- C7: an area reference whose tag byte is 1 or 2 and whose 3-byte
redirect target equals 0 resolves to the empty area string, without
failing. -/
theorem c7_area_zero_target (data : Bytes) (fuel offset m : Nat)
    (h1 : byteAt data offset = .ok m) (h2 : m = 1 ∨ m = 2)
    (h3 : getLong3 data (offset + 1) = .ok 0) :
    getAreaAddr data (fuel + 1) offset = .ok [] := by
  simp only [getAreaAddr, h1, h3, bind, Except.bind]
  have : (m = 1 ∨ m = 2) = True := by simp [h2]
  simp [this]

theorem c7_area_zero_target_witness :
    getAreaAddr [2, 0, 0, 0] 1 0 = .ok [] :=
  c7_area_zero_target [2, 0, 0, 0] 0 0 2 rfl (Or.inr rfl) rfl

/-- C10: when no zero byte occurs in the buffer at or after `offset`,
`_get_string` silently drops the final byte: it returns the bytes from
`offset` up to but excluding the last byte of the buffer. -/
theorem c10_getString_no_zero (data : Bytes) (offset : Nat)
    (h : ∀ b ∈ data.drop offset, b ≠ 0) :
    getString data offset =
      (data.drop offset).take (data.length - 1 - offset) := by
  have hfind : (data.drop offset).findIdx? (· = 0) = none := by
    rw [List.findIdx?_eq_none_iff]
    intro x hx
    simp [h x hx]
  simp [getString, findZero, hfind]

theorem c10_getString_no_zero_witness :
    getString [65, 66, 67] 1 = [66] :=
  c10_getString_no_zero [65, 66, 67] 1 (by decide)

/-- C6: a record whose country tag byte is 2 with 3-byte target `t`, and
whose area reference at `offset + 4` has a tag other than 1 or 2, resolves
to the country string at `t` and the area string at `offset + 4`, joined
by exactly one separating space (byte 32).  Here `offset` is
`record_pointer + 4`, so `offset + 4` is `record_pointer + 4 + 4`. -/
theorem c6_tag2_literal_area (data : Bytes) (fuel offset t m : Nat)
    (h1 : byteAt data offset = .ok 2)
    (h2 : getLong3 data (offset + 1) = .ok t)
    (h3 : byteAt data (offset + 4) = .ok m)
    (h4 : m ≠ 1) (h5 : m ≠ 2) :
    getAddr data (fuel + 2) offset =
      getString data t ++ [32] ++ getString data (offset + 4) := by
  have harea : getAreaAddr data (fuel + 1) (offset + 4) =
      .ok (getString data (offset + 4)) := by
    simp only [getAreaAddr, h3, bind, Except.bind]
    have : (m = 1 ∨ m = 2) = False := by simp [h4, h5]
    simp [this]
  simp [getAddr, getAddrBody, h1, h2, harea, bind, Except.bind]

theorem c6_tag2_literal_area_witness :
    getAddr [2, 8, 0, 0, 65, 0, 0, 0, 72, 73, 0] 2 0 = [72, 73, 32, 65] :=
  c6_tag2_literal_area [2, 8, 0, 0, 65, 0, 0, 0, 72, 73, 0] 0 0 8 65
    rfl rfl rfl (by decide) (by decide)

/-- C4: record resolution always terminates; in particular a cyclic
redirect (tag 1 whose 3-byte target points back at the same offset)
yields the empty location string for every fuel value — the recursion
limit (`RecursionError`, caught by the bare `except:`) bounds the hops
and the result degrades to the empty string instead of resolving
forever. -/
theorem c4_cyclic_redirect_empty (data : Bytes) (offset : Nat)
    (h1 : byteAt data offset = .ok 1)
    (h2 : getLong3 data (offset + 1) = .ok offset) :
    ∀ fuel, getAddr data fuel offset = [] := by
  intro fuel
  induction fuel with
  | zero => rfl
  | succ n ih =>
    simp [getAddr, getAddrBody, h1, h2, ih, bind, Except.bind]

theorem c4_cyclic_redirect_empty_witness :
    getAddr [1, 0, 0, 0] 5 0 = [] :=
  c4_cyclic_redirect_empty [1, 0, 0, 0] 0 rfl rfl 5

theorem covers_nil (n : Nat) : ¬ covers [] n := by simp [covers]

theorem covers_cons (p : Nat × Nat) (t : List (Nat × Nat)) (n : Nat) :
    covers (p :: t) n ↔ (p.1 ≤ n ∧ n ≤ p.2) ∨ covers t n := by
  simp [covers, List.mem_cons, or_and_right, exists_or]

theorem covers_perm {l l' : List (Nat × Nat)} (h : l.Perm l') (n : Nat) :
    covers l n ↔ covers l' n := by
  unfold covers
  constructor <;> rintro ⟨p, hp, hn⟩ <;> exact ⟨p, by
    first
      | exact h.mem_iff.mp hp
      | exact h.mem_iff.mpr hp, hn⟩

theorem pysort_perm (l : List (Nat × Nat)) : (pysort l).Perm l :=
  List.mergeSort_perm l _

theorem pysort_pairwise (l : List (Nat × Nat)) :
    List.Pairwise (fun a b => a.1 ≤ b.1) (pysort l) := by
  have h := @List.sorted_mergeSort (Nat × Nat)
    (fun a b => decide (a.1 ≤ b.1))
    (fun a b c hab hbc => by
      simp only [decide_eq_true_eq] at *
      omega)
    (fun a b => by
      simp only [Bool.or_eq_true, decide_eq_true_eq]
      omega) l
  exact h.imp (by simp)

theorem goodChain_wf_head {p : Nat × Nat} {t : List (Nat × Nat)}
    (h : goodChain (p :: t)) : p.1 ≤ p.2 := by
  cases t with
  | nil => exact h
  | cons b t' => exact h.1

theorem goodChain_tail {p : Nat × Nat} {t : List (Nat × Nat)}
    (h : goodChain (p :: t)) : goodChain t := by
  cases t with
  | nil => trivial
  | cons b t' => exact h.2.2

theorem goodChain_gap {p : Nat × Nat} {t : List (Nat × Nat)}
    (h : goodChain (p :: t)) : ∀ x ∈ t, p.2 + 1 < x.1 := by
  induction t generalizing p with
  | nil => intro x hx; cases hx
  | cons b t' ih =>
    intro x hx
    rcases List.mem_cons.mp hx with rfl | hx'
    · exact h.2.1
    · have hb := @ih b h.2.2 x hx'
      have hwfb : b.1 ≤ b.2 := goodChain_wf_head h.2.2
      have := h.2.1
      omega

theorem goodChain_pairwise_gap {l : List (Nat × Nat)} (h : goodChain l) :
    List.Pairwise (fun a b => a.2 + 1 < b.1) l := by
  induction l with
  | nil => exact List.Pairwise.nil
  | cons p t ih =>
    exact List.Pairwise.cons (goodChain_gap h) (ih (goodChain_tail h))

theorem goodChain_wf {l : List (Nat × Nat)} (h : goodChain l) :
    ∀ p ∈ l, p.1 ≤ p.2 := by
  induction l with
  | nil => intro p hp; cases hp
  | cons q t ih =>
    intro p hp
    rcases List.mem_cons.mp hp with rfl | hp'
    · exact goodChain_wf_head h
    · exact ih (goodChain_tail h) p hp'

theorem goodChain_covers_lb {p : Nat × Nat} {t : List (Nat × Nat)}
    (h : goodChain (p :: t)) {n : Nat} (hc : covers (p :: t) n) :
    p.1 ≤ n := by
  rcases (covers_cons p t n).mp hc with ⟨h1, _⟩ | hc'
  · exact h1
  · obtain ⟨x, hx, hxn, _⟩ := hc'
    have := goodChain_gap h x hx
    have := goodChain_wf_head h
    omega

theorem goodChain_covers_tail {p : Nat × Nat} {t : List (Nat × Nat)}
    (h : goodChain (p :: t)) {n : Nat} (hc : covers t n) :
    p.2 + 1 < n := by
  obtain ⟨x, hx, hxn, _⟩ := hc
  have := goodChain_gap h x hx
  omega

/-- Merged chains with the same covered set are equal. -/
theorem goodChain_unique :
    ∀ {l l' : List (Nat × Nat)}, goodChain l → goodChain l' →
      (∀ n, covers l n ↔ covers l' n) → l = l'
  | [], [], _, _, _ => rfl
  | [], (p :: t), _, h', hcov => by
    exfalso
    exact covers_nil p.1 ((hcov p.1).mpr
      ((covers_cons p t p.1).mpr (Or.inl ⟨le_refl _, goodChain_wf_head h'⟩)))
  | (p :: t), [], h, _, hcov => by
    exfalso
    exact covers_nil p.1 ((hcov p.1).mp
      ((covers_cons p t p.1).mpr (Or.inl ⟨le_refl _, goodChain_wf_head h⟩)))
  | (p :: t), (p' :: t'), h, h', hcov => by
    have hwp : p.1 ≤ p.2 := goodChain_wf_head h
    have hwp' : p'.1 ≤ p'.2 := goodChain_wf_head h'
    have hcp : covers (p' :: t') p.1 :=
      (hcov p.1).mp ((covers_cons p t p.1).mpr (Or.inl ⟨le_refl _, hwp⟩))
    have hcp' : covers (p :: t) p'.1 :=
      (hcov p'.1).mpr ((covers_cons p' t' p'.1).mpr (Or.inl ⟨le_refl _, hwp'⟩))
    have hs1 : p'.1 ≤ p.1 := goodChain_covers_lb h' hcp
    have hs2 : p.1 ≤ p'.1 := goodChain_covers_lb h hcp'
    have hs : p.1 = p'.1 := le_antisymm hs2 hs1
    have he : p.2 = p'.2 := by
      by_contra hne
      rcases Nat.lt_or_ge p.2 p'.2 with hlt | hge
      · have hcn : covers (p' :: t') (p.2 + 1) :=
          (covers_cons p' t' _).mpr (Or.inl ⟨by omega, by omega⟩)
        rcases (covers_cons p t _).mp ((hcov _).mpr hcn) with ⟨_, h2⟩ | hct
        · omega
        · have := goodChain_covers_tail h hct
          omega
      · have hlt : p'.2 < p.2 := by omega
        have hcn : covers (p :: t) (p'.2 + 1) :=
          (covers_cons p t _).mpr (Or.inl ⟨by omega, by omega⟩)
        rcases (covers_cons p' t' _).mp ((hcov _).mp hcn) with ⟨_, h2⟩ | hct
        · omega
        · have := goodChain_covers_tail h' hct
          omega
    have htl : ∀ n, covers t n ↔ covers t' n := by
      intro n
      constructor
      · intro hc
        have hn := goodChain_covers_tail h hc
        rcases (covers_cons p' t' n).mp
          ((hcov n).mp ((covers_cons p t n).mpr (Or.inr hc))) with ⟨_, h2⟩ | h2
        · omega
        · exact h2
      · intro hc
        have hn := goodChain_covers_tail h' hc
        rcases (covers_cons p t n).mp
          ((hcov n).mpr ((covers_cons p' t' n).mpr (Or.inr hc))) with ⟨_, h2⟩ | h2
        · omega
        · exact h2
    have hpt : t = t' :=
      goodChain_unique (goodChain_tail h) (goodChain_tail h') htl
    have hp : p = p' := Prod.ext hs he
    rw [hp, hpt]

/-- The fold keeps the start of the current interval as the start of the
first emitted interval, and only ever extends its end. -/
theorem mergeFold_head (t : List (Nat × Nat)) :
    ∀ cs ce, ∃ e2 t2, mergeFold (cs, ce) t = (cs, e2) :: t2 ∧ ce ≤ e2 := by
  induction t with
  | nil => intro cs ce; exact ⟨ce, [], rfl, le_refl _⟩
  | cons b t' ih =>
    intro cs ce
    rcases b with ⟨ns, ne⟩
    by_cases hb : ns ≤ ce + 1
    · obtain ⟨e2, t2, heq, hle⟩ := ih cs (max ce ne)
      exact ⟨e2, t2, by simp [mergeFold, hb, heq], by omega⟩
    · exact ⟨ce, mergeFold (ns, ne) t', by simp [mergeFold, hb], le_refl _⟩

theorem mergeFold_goodChain :
    ∀ (t : List (Nat × Nat)) (cs ce : Nat),
      List.Pairwise (fun a b => a.1 ≤ b.1) ((cs, ce) :: t) →
      cs ≤ ce → (∀ x ∈ t, x.1 ≤ x.2) →
      goodChain (mergeFold (cs, ce) t)
  | [], cs, ce, _, hwf, _ => hwf
  | (ns, ne) :: t', cs, ce, hpw, hwf, hwft => by
    have hpw' := List.pairwise_cons.mp hpw
    have hpwt := List.pairwise_cons.mp hpw'.2
    by_cases hb : ns ≤ ce + 1
    · have : goodChain (mergeFold (cs, max ce ne) t') := by
        apply mergeFold_goodChain t' cs (max ce ne)
        · exact List.pairwise_cons.mpr
            ⟨fun x hx => hpw'.1 x (List.mem_cons_of_mem _ hx), hpwt.2⟩
        · omega
        · exact fun x hx => hwft x (List.mem_cons_of_mem _ hx)
      simpa [mergeFold, hb] using this
    · have hrest : goodChain (mergeFold (ns, ne) t') := by
        apply mergeFold_goodChain t' ns ne
        · exact hpw'.2
        · exact hwft (ns, ne) (List.mem_cons_self _ _)
        · exact fun x hx => hwft x (List.mem_cons_of_mem _ hx)
      obtain ⟨e2, t2, heq, _⟩ := mergeFold_head t' ns ne
      simp only [mergeFold, hb, if_false]
      rw [heq] at hrest ⊢
      exact ⟨hwf, by omega, hrest⟩

theorem mergeFold_covers :
    ∀ (t : List (Nat × Nat)) (cs ce : Nat),
      List.Pairwise (fun a b => a.1 ≤ b.1) ((cs, ce) :: t) →
      ∀ n, covers (mergeFold (cs, ce) t) n ↔ covers ((cs, ce) :: t) n
  | [], cs, ce, _, n => Iff.rfl
  | (ns, ne) :: t', cs, ce, hpw, n => by
    have hpw' := List.pairwise_cons.mp hpw
    have hcs : cs ≤ ns := hpw'.1 (ns, ne) (List.mem_cons_self _ _)
    by_cases hb : ns ≤ ce + 1
    · have hpw2 : List.Pairwise (fun a b => a.1 ≤ b.1)
          ((cs, max ce ne) :: t') := by
        refine List.pairwise_cons.mpr
          ⟨fun x hx => hpw'.1 x (List.mem_cons_of_mem _ hx),
           (List.pairwise_cons.mp hpw'.2).2⟩
      have ih := mergeFold_covers t' cs (max ce ne) hpw2 n
      simp only [mergeFold, hb, if_true]
      rw [ih]
      rw [covers_cons, covers_cons, covers_cons]
      rcases Nat.le_total ce ne with hm | hm
      · rw [Nat.max_eq_right hm]
        constructor
        · rintro (⟨h1, h2⟩ | hc)
          · rcases Nat.lt_or_ge ce n with h3 | h3
            · exact Or.inr (Or.inl ⟨by omega, h2⟩)
            · exact Or.inl ⟨h1, h3⟩
          · exact Or.inr (Or.inr hc)
        · rintro (⟨h1, h2⟩ | ⟨h1, h2⟩ | hc)
          · exact Or.inl ⟨h1, by omega⟩
          · exact Or.inl ⟨by omega, h2⟩
          · exact Or.inr hc
      · rw [Nat.max_eq_left hm]
        constructor
        · rintro (⟨h1, h2⟩ | hc)
          · exact Or.inl ⟨h1, h2⟩
          · exact Or.inr (Or.inr hc)
        · rintro (⟨h1, h2⟩ | ⟨h1, h2⟩ | hc)
          · exact Or.inl ⟨h1, h2⟩
          · exact Or.inl ⟨by omega, by omega⟩
          · exact Or.inr hc
    · have ih := mergeFold_covers t' ns ne hpw'.2 n
      simp only [mergeFold, hb, if_false]
      rw [covers_cons, ih]
      simp only [covers_cons]

/-- The output of merge on a well-formed input is a well-formed chain. -/
theorem mergeRanges_goodChain (l : List (Nat × Nat))
    (hwf : ∀ p ∈ l, p.1 ≤ p.2) : goodChain (mergeRanges l) := by
  unfold mergeRanges mergeState
  have hperm := pysort_perm l
  have hpw := pysort_pairwise l
  cases hs : pysort l with
  | nil => trivial
  | cons x t =>
    rcases x with ⟨cs, ce⟩
    rw [hs] at hperm hpw
    simp only [hs]
    apply mergeFold_goodChain t cs ce hpw
    · exact hwf (cs, ce) (hperm.mem_iff.mp (List.mem_cons_self _ _))
    · exact fun p hp => hwf p (hperm.mem_iff.mp (List.mem_cons_of_mem _ hp))

/-- Merge preserves the covered address set. -/
theorem mergeRanges_covers (l : List (Nat × Nat)) (n : Nat) :
    covers (mergeRanges l) n ↔ covers l n := by
  unfold mergeRanges mergeState
  have hperm := pysort_perm l
  have hpw := pysort_pairwise l
  cases hs : pysort l with
  | nil =>
    rw [hs] at hperm
    have : l = [] := hperm.symm.eq_nil
    simp [this]
  | cons x t =>
    rcases x with ⟨cs, ce⟩
    rw [hs] at hperm hpw
    simp only [hs]
    rw [mergeFold_covers t cs ce hpw n]
    exact covers_perm hperm n

theorem mergeRanges_wf (l : List (Nat × Nat))
    (hwf : ∀ p ∈ l, p.1 ≤ p.2) : ∀ p ∈ mergeRanges l, p.1 ≤ p.2 :=
  goodChain_wf (mergeRanges_goodChain l hwf)

/-- C2: for well-formed input ranges, merge returns a list sorted
strictly ascending by start, with no two output intervals overlapping and
no adjacent-but-unmerged pair (each interval's end + 1 is strictly below
the next start), every output interval well-formed, the covered address
set preserved exactly, empty input giving empty output, and the fold
coalescing a next interval into the current one exactly when
`next.start ≤ current.end + 1`. -/
theorem c2_merge_correct (l : List (Nat × Nat))
    (hwf : ∀ p ∈ l, p.1 ≤ p.2) :
    List.Pairwise (fun a b => a.1 < b.1) (mergeRanges l) ∧
    List.Pairwise (fun a b => a.2 + 1 < b.1) (mergeRanges l) ∧
    (∀ p ∈ mergeRanges l, p.1 ≤ p.2) ∧
    (∀ n, covers (mergeRanges l) n ↔ covers l n) ∧
    mergeRanges [] = [] ∧
    (∀ cs ce ns ne t, mergeFold (cs, ce) ((ns, ne) :: t) =
      if ns ≤ ce + 1 then mergeFold (cs, max ce ne) t
      else (cs, ce) :: mergeFold (ns, ne) t) := by
  have hchain := mergeRanges_goodChain l hwf
  have hgap := goodChain_pairwise_gap hchain
  have hwfo := goodChain_wf hchain
  refine ⟨?_, hgap, hwfo, mergeRanges_covers l, ?_, fun _ _ _ _ _ => rfl⟩
  · exact hgap.imp_of_mem (fun ha _ h => by have := hwfo _ ha; omega)
  · simp [mergeRanges, mergeState, pysort, List.mergeSort]

theorem c2_merge_correct_witness :
    covers (mergeRanges [((10 : Nat), (20 : Nat)), (21, 30)]) 25 ↔
      covers [(10, 20), (21, 30)] 25 :=
  (c2_merge_correct [(10, 20), (21, 30)] (by decide)).2.2.2.1 25

/-- C5: merge is idempotent and order-insensitive on well-formed
inputs: merging an already merged list changes nothing, and merging any
permutation of the input gives the same output. -/
theorem c5_idempotent_order_insensitive (l : List (Nat × Nat))
    (hwf : ∀ p ∈ l, p.1 ≤ p.2) :
    mergeRanges (mergeRanges l) = mergeRanges l ∧
    (∀ l', l'.Perm l → mergeRanges l' = mergeRanges l) := by
  constructor
  · apply goodChain_unique
      (mergeRanges_goodChain _ (mergeRanges_wf l hwf))
      (mergeRanges_goodChain l hwf)
    intro n
    rw [mergeRanges_covers]
  · intro l' hp
    have hwf' : ∀ p ∈ l', p.1 ≤ p.2 := fun p hp' => hwf p (hp.mem_iff.mp hp')
    apply goodChain_unique
      (mergeRanges_goodChain l' hwf')
      (mergeRanges_goodChain l hwf)
    intro n
    rw [mergeRanges_covers, mergeRanges_covers]
    exact covers_perm hp n

theorem c5_idempotent_order_insensitive_witness :
    mergeRanges (mergeRanges [((1 : Nat), (2 : Nat)), (5, 6)]) =
      mergeRanges [(1, 2), (5, 6)] :=
  (c5_idempotent_order_insensitive [(1, 2), (5, 6)] (by decide)).1

/-- C9 counterexample: the claim that no non-empty input list remains
unchanged is false — a singleton (or any already sorted) input is left
exactly as it was by the in-place sort. -/
theorem c9_counterexample :
    mergePost [(0, 5)] = [(0, 5)] ∧
      ([((0 : Nat), (5 : Nat))] : List (Nat × Nat)) ≠ [] := by
  constructor
  · simp [mergePost, mergeState, pysort, List.mergeSort]
  · simp

theorem unpackU32_ok (data : Bytes) (offset : Nat)
    (h : offset + 4 ≤ data.length) :
    unpackU32 data offset = .ok (u32At data offset) := by
  simp [unpackU32, h]

theorem getLong3_ok (data : Bytes) (offset : Nat)
    (h : offset + 3 ≤ data.length) :
    getLong3 data offset = .ok (u24At data offset) := by
  simp [getLong3, h]

theorem scanEntry_ok (data : Bytes) (fuel firstIndex i : Nat)
    (h1 : firstIndex + i * 7 + 7 ≤ data.length)
    (h2 : u24At data (firstIndex + i * 7 + 4) + 4 ≤ data.length) :
    scanEntry data fuel firstIndex i =
      .ok (u32At data (firstIndex + i * 7),
           u32At data (u24At data (firstIndex + i * 7 + 4)),
           getAddr data fuel (u24At data (firstIndex + i * 7 + 4) + 4)) := by
  have hb1 : firstIndex + i * 7 + 4 ≤ data.length := by omega
  have hb2 : firstIndex + i * 7 + 4 + 3 ≤ data.length := by omega
  simp [scanEntry, unpackU32_ok _ _ hb1, getLong3_ok _ _ hb2,
    unpackU32_ok _ _ h2, bind, Except.bind]

theorem scanLoop_total (data : Bytes) (fuel firstIndex : Nat) :
    ∀ (n i : Nat),
      (∀ j < n, firstIndex + (i + j) * 7 + 7 ≤ data.length ∧
        u24At data (firstIndex + (i + j) * 7 + 4) + 4 ≤ data.length) →
      ∃ out, scanLoop data fuel firstIndex i n = .ok out ∧ out.length = n := by
  intro n
  induction n with
  | zero => exact fun i _ => ⟨[], rfl, rfl⟩
  | succ m ih =>
    intro i hb
    obtain ⟨h1, h2⟩ := hb 0 (Nat.succ_pos m)
    simp only [Nat.add_zero] at h1 h2
    obtain ⟨out, hout, hlen⟩ := ih (i + 1) (fun j hj => by
      have := hb (j + 1) (by omega)
      have harith : i + 1 + j = i + (j + 1) := by omega
      rw [harith]
      exact this)
    refine ⟨(u32At data (firstIndex + i * 7),
             u32At data (u24At data (firstIndex + i * 7 + 4)),
             getAddr data fuel (u24At data (firstIndex + i * 7 + 4) + 4))
        :: out, ?_, ?_⟩
    · simp [scanLoop, scanEntry_ok data fuel firstIndex i h1 h2, hout,
        bind, Except.bind]
    · simp [hlen]

/-- C1 counterexample: a database image whose single index entry has a
record pointer whose 4-byte end-address read is out of bounds.  The read
happens outside any `try`, so this per-record failure aborts the whole
scan instead of degrading to a skipped entry. -/
theorem c1_counterexample :
    scanAll [8, 0, 0, 0, 8, 0, 0, 0, 1, 0, 0, 0, 100, 0, 0] 9 =
      .error () := rfl

/-- C1 (amended): failures inside location-text resolution always
degrade to an empty location and never abort the scan — whenever every
index entry and every record end-address read is in bounds, the scan
completes and iterates exactly `entry_count` entries, with no assumption
at all about the location records; but out-of-bounds index-entry or
end-address reads (which sit outside the `try`) abort the scan. -/
theorem c1_scan_iterates_all (data : Bytes) (fuel : Nat)
    (fi li : Nat) (c : Int)
    (hh : parseHeader data = .ok (fi, li, c))
    (hb : ∀ i < c.toNat, fi + i * 7 + 7 ≤ data.length ∧
      u24At data (fi + i * 7 + 4) + 4 ≤ data.length) :
    ∃ out, scanAll data fuel = .ok out ∧ out.length = c.toNat := by
  obtain ⟨out, hout, hlen⟩ := scanLoop_total data fuel fi c.toNat 0
    (fun j hj => by simpa using hb j hj)
  exact ⟨out, by simp [scanAll, hh, hout, bind, Except.bind], hlen⟩

theorem c1_scan_iterates_all_witness :
    ∃ out, scanAll [8, 0, 0, 0, 8, 0, 0, 0, 1, 0, 0, 0, 0, 0, 0] 3 =
      .ok out ∧ out.length = (1 : Int).toNat :=
  c1_scan_iterates_all [8, 0, 0, 0, 8, 0, 0, 0, 1, 0, 0, 0, 0, 0, 0] 3
    8 8 1 rfl (by decide)

/-- C8 counterexample: a header whose offsets make
`entry_count = (last - first) // 7 + 1` compute to zero is not fatal —
the load succeeds and the scan enumerates zero entries, producing empty
(not aborted) output. -/
theorem c8_counterexample :
    scanAll [7, 0, 0, 0, 0, 0, 0, 0] 3 = .ok [] := rfl

/-- C8 (amended): a buffer too short to hold the 8-byte header makes the
load fatal, and a positive entry count whose first index entry is out of
bounds aborts the scan at its first read; but a non-positive derived
entry count is not fatal: the scan iterates zero entries and yields
empty output. -/
theorem c8_header_behaviour (data : Bytes) (fuel : Nat) :
    (data.length < 8 → scanAll data fuel = .error ()) ∧
    (∀ fi li c, parseHeader data = .ok (fi, li, c) → c ≤ 0 →
      scanAll data fuel = .ok []) ∧
    (∀ fi li c, parseHeader data = .ok (fi, li, c) → 0 < c →
      data.length < fi + 4 → scanAll data fuel = .error ()) := by
  refine ⟨?_, ?_, ?_⟩
  · intro hlen
    have hparse : parseHeader data = .error () := by
      rcases Nat.lt_or_ge data.length 4 with h4 | h4
      · simp [parseHeader, unpackU32, show ¬(0 + 4 ≤ data.length) by omega,
          bind, Except.bind]
      · simp [parseHeader, unpackU32, show 0 + 4 ≤ data.length by omega,
          show ¬(4 + 4 ≤ data.length) by omega, bind, Except.bind]
    simp [scanAll, hparse, bind, Except.bind]
  · intro fi li c hh hc
    have : c.toNat = 0 := Int.toNat_of_nonpos hc
    simp [scanAll, hh, this, scanLoop, bind, Except.bind]
  · intro fi li c hh hc hfi
    obtain ⟨k, hk⟩ : ∃ k, c.toNat = k + 1 := by
      have : c.toNat ≠ 0 := by
        intro h0
        have := Int.toNat_eq_zero.mp h0
        omega
      exact ⟨c.toNat - 1, by omega⟩
    have hentry : scanEntry data fuel fi 0 = .error () := by
      simp [scanEntry, unpackU32, show ¬(fi + 0 * 7 + 4 ≤ data.length) by omega,
        bind, Except.bind]
    simp [scanAll, hh, hk, scanLoop, hentry, bind, Except.bind]

theorem c8_header_behaviour_witness :
    scanAll [1, 2, 3] 1 = .error () :=
  (c8_header_behaviour [1, 2, 3] 1).1 (by decide)

/-- C9 (amended): merge does mutate its input — after the call the
caller's list is the stable ascending-by-start permutation of the
original — but an input that is already sorted (for example any
singleton) remains equal to itself. -/
theorem c9_post_state (l : List (Nat × Nat)) :
    List.Pairwise (fun a b => a.1 ≤ b.1) (mergePost l) ∧
      (mergePost l).Perm l := by
  have heq : mergePost l = pysort l := by
    unfold mergePost mergeState
    split
    next heq =>
      have hl : l = [] := (heq ▸ pysort_perm l).symm.eq_nil
      rw [heq, hl]
    next x t heq => rfl
  rw [heq]
  exact ⟨pysort_pairwise l, pysort_perm l⟩

example : summarize 3 5 = [(3, 1), (4, 2)] := by
  simp [summarize, chooseSize, tzsize, pw2, Nat.log]

example : mergeRanges [(21, 30), (10, 20)] = [(10, 30)] := by
  simp [mergeRanges, mergeState, pysort, List.mergeSort, mergeFold]

example : mergeRanges [(10, 20), (22, 30)] = [(10, 20), (22, 30)] := by
  simp [mergeRanges, mergeState, pysort, List.mergeSort, mergeFold]

end QQWry
